import Mathlib

/-!
Verification development for the coraza-kubernetes-operator rule cache,
its HTTP server, and the RuleSet reconciler.

The definitions below are shallow embeddings of the Go source:

* `RuleSetEntry`, `RuleSetEntries`, `RuleSetCache` and the operations
  `Put`, `Get`, `Prune`, `PruneBySize`, `TotalSize`, `ListKeys` embed
  `internal/rulesets/cache` (the cache file).  The Go map
  `map[string]*RuleSetEntries` is embedded as an association list kept in
  key-insertion order; map iteration order (which Go randomizes) is made
  explicit as an `order : List String` parameter where the source iterates
  the map with entry-level state (`PruneBySize`).  `uuid.New()` is embedded
  as a fresh counter drawn from `nextUUID` (the library guarantees global
  uniqueness of generated identifiers); `time.Now()` is passed in as an
  explicit `now : Int` argument.  Durations and timestamps are `Int`
  (Go `time.Duration`/`time.Time` arithmetic on int64 nanoseconds), and
  `len(rules)` is the UTF-8 byte size of the string.
* `handleRules`, `handleLatest`, `handleGetRules` embed
  `internal/rulesets/cache/server.go`.
* The condition helpers and `Reconcile` embed the RuleSet controller file;
  `SetStatusCondition` / `RemoveStatusCondition` / `FindStatusCondition`
  embed the k8s.io/apimachinery `meta` helpers those functions call
  (update-in-place of the first condition of the same type, or append;
  the helpers always pass a current, non-zero timestamp, so apimachinery's
  zero-time defaulting branch is unreachable at these call sites).
-/

/-- A cached ruleset with metadata (cache file, `RuleSetEntry`): a version
identifier, a wall-clock timestamp and the rule blob. -/

structure RuleSetEntry where
  UUID : Nat
  Timestamp : Int
  Rules : String
  deriving Repr, DecidableEq

/-- The version history of one instance (cache file, `RuleSetEntries`):
entries ordered oldest to newest, with the latest entry marked by its UUID. -/

structure RuleSetEntries where
  Latest : Nat
  Entries : List RuleSetEntry
  deriving Repr, DecidableEq

/-- The cache (cache file, `RuleSetCache`): the Go map is embedded as an
association list in key-insertion order; `nextUUID` is the fresh-identifier
source standing for `uuid.New()`. -/

structure RuleSetCache where
  entries : List (String × RuleSetEntries)
  nextUUID : Nat
  deriving Repr, DecidableEq

/-- `NewRuleSetCache` creates an empty cache. -/

def NewRuleSetCache : RuleSetCache := ⟨[], 0⟩

/-- First-match lookup in the association list (Go map indexing). -/

def lookupKey : List (String × RuleSetEntries) → String → Option RuleSetEntries
  | [], _ => none
  | (k, es) :: rest, i => if k = i then some es else lookupKey rest i

/-- Replace the value stored under a key (Go map assignment to an existing
key); leaves the list unchanged when the key is absent. -/

def updateKey : List (String × RuleSetEntries) → String → RuleSetEntries →
    List (String × RuleSetEntries)
  | [], _, _ => []
  | (k, es) :: rest, i, v =>
    if k = i then (k, v) :: rest else (k, es) :: updateKey rest i v

/-- `Put` stores rules for the given instance with a new UUID and timestamp;
new entries are appended at the end (oldest-to-newest order), and the first
write for a key creates its history. -/

def RuleSetCache.Put (c : RuleSetCache) (inst rules : String) (now : Int) :
    RuleSetCache :=
  let newEntry : RuleSetEntry := ⟨c.nextUUID, now, rules⟩
  match lookupKey c.entries inst with
  | none =>
    ⟨c.entries ++ [(inst, ⟨newEntry.UUID, [newEntry]⟩)], c.nextUUID + 1⟩
  | some es =>
    ⟨updateKey c.entries inst ⟨newEntry.UUID, es.Entries ++ [newEntry]⟩,
     c.nextUUID + 1⟩

/-- Core of `Get` on the raw association list: absent key or empty history
yields nothing, otherwise scan for the entry matching the `Latest` UUID. -/

def getLatestIn (st : List (String × RuleSetEntries)) (inst : String) :
    Option RuleSetEntry :=
  match lookupKey st inst with
  | none => none
  | some es =>
    if es.Entries.length = 0 then none
    else es.Entries.find? (fun e => e.UUID == es.Latest)

/-- `Get` retrieves the latest ruleset entry for the given instance. -/

def RuleSetCache.Get (c : RuleSetCache) (inst : String) : Option RuleSetEntry :=
  getLatestIn c.entries inst

/-- `ListKeys` returns all instance names stored in the cache. -/

def RuleSetCache.ListKeys (c : RuleSetCache) : List String :=
  c.entries.map (fun p => p.1)

/-- Byte size of one history: sum of `len(entry.Rules)`. -/

def RuleSetEntries.size (es : RuleSetEntries) : Nat :=
  (es.Entries.map (fun e => e.Rules.utf8ByteSize)).sum

/-- `TotalSize` returns the total size of all cached rules in bytes. -/

def RuleSetCache.TotalSize (c : RuleSetCache) : Nat :=
  (c.entries.map (fun p => p.2.size)).sum

/-- `CountEntries` returns the number of entries for an instance. -/

def RuleSetCache.CountEntries (c : RuleSetCache) (inst : String) : Nat :=
  match lookupKey c.entries inst with
  | some es => es.Entries.length
  | none => 0

/-- Inner loop of `Prune` over one history: keep the latest entry
unconditionally, keep entries with `now.Sub(entry.Timestamp) <= maxAge`,
drop (and count) the rest. -/

def pruneEntriesByAge (latest : Nat) (now maxAge : Int) :
    List RuleSetEntry → List RuleSetEntry × Nat
  | [] => ([], 0)
  | e :: rest =>
    let r := pruneEntriesByAge latest now maxAge rest
    if e.UUID = latest then (e :: r.1, r.2)
    else if now - e.Timestamp ≤ maxAge then (e :: r.1, r.2)
    else (r.1, r.2 + 1)

/-- `Prune` removes cache entries older than the specified age, but never
removes the latest entry for any instance; returns the number removed.
The Go loop visits every key (per-key results are independent, so the map
iteration order does not affect the outcome). -/

def RuleSetCache.Prune (c : RuleSetCache) (now maxAge : Int) :
    RuleSetCache × Nat :=
  if c.entries.isEmpty then (c, 0)
  else
    (⟨c.entries.map (fun p =>
        (p.1, ⟨p.2.Latest, (pruneEntriesByAge p.2.Latest now maxAge p.2.Entries).1⟩)),
      c.nextUUID⟩,
     (c.entries.map (fun p =>
        (pruneEntriesByAge p.2.Latest now maxAge p.2.Entries).2)).sum)

/-- Inner loop of `PruneBySize` over one history, threading the running
`currentSize` and `pruned` counters: the latest entry is always kept;
while still over the limit a non-latest entry is dropped and its byte size
subtracted; once under the limit the remainder is kept. -/

def pruneEntriesBySize (latest : Nat) (maxSize : Int) :
    List RuleSetEntry → Int → Nat → List RuleSetEntry × Int × Nat
  | [], cur, pruned => ([], cur, pruned)
  | e :: rest, cur, pruned =>
    if e.UUID = latest then
      let r := pruneEntriesBySize latest maxSize rest cur pruned
      (e :: r.1, r.2)
    else if cur > maxSize then
      pruneEntriesBySize latest maxSize rest (cur - (e.Rules.utf8ByteSize : Int))
        (pruned + 1)
    else
      let r := pruneEntriesBySize latest maxSize rest cur pruned
      (e :: r.1, r.2)

/-- Outer loop of `PruneBySize` over the map's keys in iteration order
`order`: stop as soon as the size is within the limit, otherwise rewrite the
next key's history.  A key absent from the state is skipped (unreachable in
Go, where `order` enumerates exactly the map's keys). -/

def pruneKeysBySize (maxSize : Int) :
    List String → List (String × RuleSetEntries) → Int → Nat →
    List (String × RuleSetEntries) × Nat
  | [], st, _, pruned => (st, pruned)
  | k :: rest, st, cur, pruned =>
    if cur ≤ maxSize then (st, pruned)
    else
      match lookupKey st k with
      | none => pruneKeysBySize maxSize rest st cur pruned
      | some es =>
        let r := pruneEntriesBySize es.Latest maxSize es.Entries cur pruned
        pruneKeysBySize maxSize rest (updateKey st k ⟨es.Latest, r.1⟩) r.2.1 r.2.2

/-- `PruneBySize` removes oldest entries until the cache is under `maxSize`,
iterating instances in the map iteration order `order` (Go randomizes this
order between runs), never removing the latest entry of any instance;
returns the number removed. -/

def RuleSetCache.PruneBySize (c : RuleSetCache) (order : List String)
    (maxSize : Int) : RuleSetCache × Nat :=
  let currentSize : Int := (c.TotalSize : Int)
  if currentSize ≤ maxSize then (c, 0)
  else
    let r := pruneKeysBySize maxSize order c.entries currentSize 0
    (⟨r.1, c.nextUUID⟩, r.2)

/-- Go `strings.TrimPrefix`: remove the leading occurrence of `pre` when `s`
starts with it, otherwise return `s` unchanged. -/

def stripLead (s pre : String) : String :=
  if pre.data.isPrefixOf s.data then ⟨s.data.drop pre.data.length⟩ else s

/-- Go `strings.HasSuffix`: whether `s` ends with `suf`. -/

def endsWith (s suf : String) : Bool :=
  suf.data.isSuffixOf s.data

/-- Go `strings.TrimSuffix`: remove the trailing occurrence of `suf` when `s`
ends with it, otherwise return `s` unchanged. -/

def stripTail (s suf : String) : String :=
  if suf.data.isSuffixOf s.data then ⟨s.data.take (s.data.length - suf.data.length)⟩
  else s

/-- The observable outcome of one request to the rules mux (server.go).
`okLatest` carries the `LatestResponse` payload (JSON fields `uuid` and
`timestamp`); `okRules` carries the whole `RuleSetEntry` (JSON fields
`uuid`, `timestamp`, `rules`). -/

inductive HTTPResponse where
  | methodNotAllowed
  | badRequest
  | notFound
  | okLatest (uuid : Nat) (timestamp : Int)
  | okRules (entry : RuleSetEntry)
  deriving Repr, DecidableEq

/-- The HTTP status code written for each outcome. -/

def HTTPResponse.statusCode : HTTPResponse → Nat
  | .methodNotAllowed => 405
  | .badRequest => 400
  | .notFound => 404
  | .okLatest _ _ => 200
  | .okRules _ => 200

/-- The JSON field names of the 200 bodies, read off the struct tags of
`LatestResponse` (`uuid`, `timestamp`) and `RuleSetEntry` (`uuid`,
`timestamp`, `rules`); error responses have no JSON body. -/

def HTTPResponse.jsonFields : HTTPResponse → List String
  | .okLatest _ _ => ["uuid", "timestamp"]
  | .okRules _ => ["uuid", "timestamp", "rules"]
  | _ => []

/-- `handleLatest` (server.go): 404 when the instance is absent, otherwise
the latest entry's UUID and timestamp. -/

def handleLatest (c : RuleSetCache) (inst : String) : HTTPResponse :=
  match c.Get inst with
  | none => .notFound
  | some e => .okLatest e.UUID e.Timestamp

/-- `handleGetRules` (server.go): 404 when the instance is absent, otherwise
the whole latest entry. -/

def handleGetRules (c : RuleSetCache) (inst : String) : HTTPResponse :=
  match c.Get inst with
  | none => .notFound
  | some e => .okRules e

/-- `handleRules` (server.go): reject non-GET methods, trim the `/rules/`
route mount, reject an empty key, dispatch a trailing `/latest` to the
metadata handler after stripping it, and otherwise serve the full entry. -/

def handleRules (c : RuleSetCache) (method path : String) : HTTPResponse :=
  if method ≠ "GET" then .methodNotAllowed
  else if stripLead path "/rules/" = "" then .badRequest
  else if endsWith (stripLead path "/rules/") "/latest" then
    handleLatest c (stripTail (stripLead path "/rules/") "/latest")
  else handleGetRules c (stripLead path "/rules/")

/-- A status condition (metav1.Condition): type, status ("True"/"False"/
"Unknown"), observed generation, last transition time, reason, message. -/

structure Condition where
  type : String
  status : String
  observedGeneration : Int
  lastTransitionTime : Int
  reason : String
  message : String
  deriving Repr, DecidableEq

/-- apimeta.FindStatusCondition: the first condition with the given type. -/

def FindStatusCondition : List Condition → String → Option Condition
  | [], _ => none
  | c :: rest, t => if c.type = t then some c else FindStatusCondition rest t

/-- apimeta.SetStatusCondition: update the first condition of the same type
in place (refreshing the transition time only when the status value changes),
or append the new condition when the type is absent. -/

def SetStatusCondition : List Condition → Condition → List Condition
  | [], newC => [newC]
  | c :: rest, newC =>
    if c.type = newC.type then
      { c with
        status := newC.status,
        lastTransitionTime :=
          if c.status ≠ newC.status then newC.lastTransitionTime
          else c.lastTransitionTime,
        reason := newC.reason,
        message := newC.message,
        observedGeneration := newC.observedGeneration } :: rest
    else c :: SetStatusCondition rest newC

/-- apimeta.RemoveStatusCondition: drop the conditions of the given type. -/

def RemoveStatusCondition (conds : List Condition) (t : String) :
    List Condition :=
  conds.filter (fun c => c.type ≠ t)

/-- setConditionTrue (controller utilities): set a condition of the given
type to True with the current generation and time. -/

def setConditionTrue (conds : List Condition) (generation : Int)
    (conditionType reason message : String) (now : Int) : List Condition :=
  SetStatusCondition conds ⟨conditionType, "True", generation, now, reason, message⟩

/-- setConditionFalse (controller utilities): set a condition of the given
type to False with the current generation and time. -/

def setConditionFalse (conds : List Condition) (generation : Int)
    (conditionType reason message : String) (now : Int) : List Condition :=
  SetStatusCondition conds ⟨conditionType, "False", generation, now, reason, message⟩

/-- setStatusConditionDegraded: Ready=False, Degraded=True, remove
Progressing. -/

def setStatusConditionDegraded (conds : List Condition) (generation : Int)
    (reason message : String) (now : Int) : List Condition :=
  RemoveStatusCondition
    (setConditionTrue (setConditionFalse conds generation "Ready" reason message now)
      generation "Degraded" reason message now)
    "Progressing"

/-- setStatusProgressing: Ready=False, Progressing=True; Degraded untouched. -/

def setStatusProgressing (conds : List Condition) (generation : Int)
    (reason message : String) (now : Int) : List Condition :=
  setConditionTrue (setConditionFalse conds generation "Ready" reason message now)
    generation "Progressing" reason message now

/-- setStatusReady: Ready=True, remove Degraded and Progressing. -/

def setStatusReady (conds : List Condition) (generation : Int)
    (reason message : String) (now : Int) : List Condition :=
  RemoveStatusCondition
    (RemoveStatusCondition (setConditionTrue conds generation "Ready" reason message now)
      "Degraded")
    "Progressing"

/-- Status of the first condition of a type, if any. -/

def statusOf (conds : List Condition) (t : String) : Option String :=
  (FindStatusCondition conds t).map (fun c => c.status)

/-- Reason of the first condition of a type, if any. -/

def reasonOf (conds : List Condition) (t : String) : Option String :=
  (FindStatusCondition conds t).map (fun c => c.reason)

/-- The conditions of one type, in order (used to state frame properties). -/

def conditionsOfType (conds : List Condition) (t : String) : List Condition :=
  conds.filter (fun c => c.type = t)

/-- One entry of `RuleSet.spec.rules`: an object reference whose `kind` and
`name` are what the reconciler reads (`apiVersion` is carried but not
consulted by the reconcile loop). -/

structure RuleSource where
  apiVersion : String
  kind : String
  name : String
  deriving Repr, DecidableEq

/-- The slice of a `RuleSet` resource the reconciler consumes: identity,
generation, current status conditions, and `spec.rules`. -/

structure RuleSetResource where
  ns : String
  name : String
  generation : Int
  conditions : List Condition
  rules : List RuleSource
  deriving Repr, DecidableEq

/-- Result of fetching a ConfigMap by name in the RuleSet's namespace:
found with its data, a NotFound API error, or any other API error. -/

inductive CMFetch where
  | found (data : List (String × String))
  | notFoundErr
  | otherErr
  deriving Repr, DecidableEq

/-- Lookup of a key in ConfigMap data. -/

def lookupStr : List (String × String) → String → Option String
  | [], _ => none
  | (k, v) :: rest, i => if k = i then some v else lookupStr rest i

/-- The `rules` data key of a fetched ConfigMap, when the fetch found one. -/

def cmRules : CMFetch → Option String
  | .found d => lookupStr d "rules"
  | _ => none

/-- Early-exit outcome of the aggregation loop over `spec.rules`. -/

inductive LoopResult where
  | ok (blob : String)
  | badKind (name kind : String)
  | cmMissing (name : String)
  | cmError (name : String)
  | noRulesKey (name : String)
  deriving Repr, DecidableEq

/-- The aggregation loop of `Reconcile` (controller file): walk `spec.rules`
in order; reject a non-ConfigMap kind; fetch each ConfigMap (absent and
other errors exit early); read its `rules` key (missing exits early); append
the text, with a "\n" written after every element except the last. -/

def aggregateLoop (fetch : String → CMFetch) : List RuleSource → LoopResult
  | [] => .ok ""
  | r :: rest =>
    if r.kind ≠ "ConfigMap" then .badKind r.name r.kind
    else
      match fetch r.name with
      | .notFoundErr => .cmMissing r.name
      | .otherErr => .cmError r.name
      | .found data =>
        match lookupStr data "rules" with
        | none => .noRulesKey r.name
        | some d =>
          match aggregateLoop fetch rest with
          | .ok blob => .ok (if rest.isEmpty then d else d ++ "\n" ++ blob)
          | e => e

/-- What one reconcile call produces: the resource's resulting status
conditions, the events emitted (type, reason), the returned
`ctrl.Result.Requeue` flag and whether a non-nil error was returned, and
the cache as left behind. -/

structure ReconcileOutput where
  conditions : List Condition
  events : List (String × String)
  requeue : Bool
  isErr : Bool
  cache : RuleSetCache
  deriving Repr, DecidableEq

/-- `Reconcile` (controller file) as a function of the fetched state: a
missing RuleSet does nothing; otherwise an initial Progressing condition is
patched when Ready is absent, the aggregation loop runs, error outcomes set
Degraded with their reason and emit a warning event (a missing ConfigMap
requeues without error; invalid kind, access error and missing `rules` key
return errors), and success `Put`s the blob under `namespace/name`, sets
Ready and emits the `RulesCached` normal event.  Status patches are modelled
as succeeding. -/

def Reconcile (rsOpt : Option RuleSetResource) (fetch : String → CMFetch)
    (c : RuleSetCache) (now : Int) : ReconcileOutput :=
  match rsOpt with
  | none => ⟨[], [], false, false, c⟩
  | some rs =>
    let conds0 :=
      if FindStatusCondition rs.conditions "Ready" = none then
        setStatusProgressing rs.conditions rs.generation "Reconciling"
          "Starting reconciliation" now
      else rs.conditions
    match aggregateLoop fetch rs.rules with
    | .badKind name kind =>
      ⟨setStatusConditionDegraded conds0 rs.generation "InvalidConfiguration"
          ("Rule source " ++ name ++ " has unsupported kind: " ++ kind ++
            " (only ConfigMap is supported)") now,
        [("Warning", "InvalidConfiguration")], false, true, c⟩
    | .cmMissing name =>
      ⟨setStatusConditionDegraded conds0 rs.generation "ConfigMapNotFound"
          ("Referenced ConfigMap " ++ name ++ " does not exist") now,
        [("Warning", "ConfigMapNotFound")], true, false, c⟩
    | .cmError name =>
      ⟨setStatusConditionDegraded conds0 rs.generation "ConfigMapAccessError"
          ("Failed to access ConfigMap " ++ name) now,
        [("Warning", "ConfigMapAccessError")], false, true, c⟩
    | .noRulesKey name =>
      ⟨setStatusConditionDegraded conds0 rs.generation "InvalidConfigMap"
          ("ConfigMap " ++ name ++ " is missing required 'rules' key") now,
        [("Warning", "InvalidConfigMap")], false, true, c⟩
    | .ok blob =>
      let cacheKey := rs.ns ++ "/" ++ rs.name
      ⟨setStatusReady conds0 rs.generation "RulesCached"
          ("Successfully cached rules for " ++ cacheKey) now,
        [("Normal", "RulesCached")], false, false, c.Put cacheKey blob now⟩

/-- One tick of the garbage-collection sweeper `rungc` (server.go):
age-based pruning, then size-based pruning when the total size exceeds
the limit. -/

structure GCTick where
  now : Int
  maxAge : Int
  order : List String
  maxSize : Int
  deriving Repr

/-- Apply one sweeper tick to the cache. -/

def gcTick (c : RuleSetCache) (t : GCTick) : RuleSetCache :=
  let c1 := (c.Prune t.now t.maxAge).1
  if (c1.TotalSize : Int) > t.maxSize then (c1.PruneBySize t.order t.maxSize).1
  else c1

/-- Apply a sequence of sweeper ticks. -/

def runGC : List GCTick → RuleSetCache → RuleSetCache
  | [], c => c
  | t :: rest, c => runGC rest (gcTick c t)

/-- A key never disappears from the cache under any sequence of sweeper
invocations. -/

def keyNeverRemoved (c : RuleSetCache) (k : String) : Prop :=
  ∀ ticks : List GCTick, lookupKey (runGC ticks c).entries k ≠ none

/-- Well-formedness of one version history relative to the identifier
counter `n`: all identifiers were drawn before `n`, and the history is a
non-empty list whose final element is the unique latest entry. -/

def InvKey (n : Nat) (es : RuleSetEntries) : Prop :=
  (∀ x ∈ es.Entries, x.UUID < n) ∧
  ∃ l e, es.Entries = l ++ [e] ∧ e.UUID = es.Latest ∧
    ∀ x ∈ l, x.UUID ≠ es.Latest

/-- Well-formedness of a raw association-list state. -/

def StInv (n : Nat) (st : List (String × RuleSetEntries)) : Prop :=
  ∀ p ∈ st, InvKey n p.2

/-- Well-formedness of the cache. -/

def CacheInv (c : RuleSetCache) : Prop := StInv c.nextUUID c.entries

/-- The mutating cache operations named by the Version History invariant:
`Put` (with its wall-clock instant), `Prune` (with its wall-clock instant
and max age) and `PruneBySize` (with the map iteration order the runtime
produced and the max size). -/

inductive CacheOp where
  | put (inst rules : String) (now : Int)
  | prune (now maxAge : Int)
  | pruneBySize (order : List String) (maxSize : Int)

/-- Apply one operation to the cache. -/

def applyOp (c : RuleSetCache) : CacheOp → RuleSetCache
  | .put i r now => c.Put i r now
  | .prune now maxAge => (c.Prune now maxAge).1
  | .pruneBySize order m => (c.PruneBySize order m).1

/-- Apply a sequence of operations, oldest first. -/

def applyOps : List CacheOp → RuleSetCache → RuleSetCache
  | [], c => c
  | op :: rest, c => applyOps rest (applyOp c op)

/-- The entry the most recent `Put` for key `k` in the trace appends,
replayed over the identifier counter: starting from counter `n` and an
already-latest entry `cur`, each `Put` for `k` installs the entry it
creates and every `Put` advances the counter. -/

def traceFrom : List CacheOp → Nat → Option RuleSetEntry → String →
    Option RuleSetEntry
  | [], _, cur, _ => cur
  | .put i r now :: rest, n, cur, k =>
    traceFrom rest (n + 1) (if i = k then some ⟨n, now, r⟩ else cur) k
  | .prune _ _ :: rest, n, cur, k => traceFrom rest n cur k
  | .pruneBySize _ _ :: rest, n, cur, k => traceFrom rest n cur k

/-- The spec's aggregation contract, in its words: concatenate the rule
texts with a single newline between adjacent entries and no trailing
separator. -/

def joinWithNewline : List String → String
  | [] => ""
  | [x] => x
  | x :: rest => x ++ "\n" ++ joinWithNewline rest

/-- A successful lookup names a pair of the association list. -/

theorem lookupKey_mem {st : List (String × RuleSetEntries)} {k : String}
    {es : RuleSetEntries} (h : lookupKey st k = some es) : (k, es) ∈ st := by
  induction st with
  | nil => simp [lookupKey] at h
  | cons p rest ih =>
    obtain ⟨k', es'⟩ := p
    simp only [lookupKey] at h
    split at h
    · next heq =>
      cases h
      subst heq
      exact List.mem_cons_self _ _
    · exact List.mem_cons_of_mem _ (ih h)

/-- Appending a fresh key makes it found. -/

theorem lookupKey_append_self {st : List (String × RuleSetEntries)} {k : String}
    (h : lookupKey st k = none) (v : RuleSetEntries) :
    lookupKey (st ++ [(k, v)]) k = some v := by
  induction st with
  | nil => simp [lookupKey]
  | cons p rest ih =>
    obtain ⟨k', es'⟩ := p
    simp only [lookupKey] at h ⊢
    split at h
    · exact absurd h (by simp)
    · next hne => simpa [hne] using ih h

/-- Appending a pair under a different key does not change a lookup. -/

theorem lookupKey_append_other {st : List (String × RuleSetEntries)}
    {k k' : String} (h : k ≠ k') (v : RuleSetEntries) :
    lookupKey (st ++ [(k, v)]) k' = lookupKey st k' := by
  induction st with
  | nil => simp [lookupKey, h]
  | cons p rest ih =>
    obtain ⟨k'', es''⟩ := p
    simp only [lookupKey]
    split
    · rfl
    · exact ih

/-- Updating a present key makes the new value found. -/

theorem updateKey_lookup_self {st : List (String × RuleSetEntries)} {k : String}
    {es : RuleSetEntries} (h : lookupKey st k = some es) (v : RuleSetEntries) :
    lookupKey (updateKey st k v) k = some v := by
  induction st with
  | nil => simp [lookupKey] at h
  | cons p rest ih =>
    obtain ⟨k', es'⟩ := p
    simp only [lookupKey, updateKey] at h ⊢
    split at h
    · next heq => simp [updateKey, heq, lookupKey]
    · next hne => simp only [if_neg hne, lookupKey, if_neg hne]; exact ih h

/-- Updating one key does not change lookups of other keys. -/

theorem updateKey_lookup_other {st : List (String × RuleSetEntries)}
    {k k' : String} (h : k ≠ k') (v : RuleSetEntries) :
    lookupKey (updateKey st k v) k' = lookupKey st k' := by
  induction st with
  | nil => simp [updateKey]
  | cons p rest ih =>
    obtain ⟨k'', es''⟩ := p
    simp only [updateKey]
    split
    · next heq =>
      subst heq
      simp [lookupKey, h]
    · simp only [lookupKey]
      split
      · rfl
      · exact ih

/-- Members of an updated association list are old members or the new pair. -/

theorem updateKey_mem {st : List (String × RuleSetEntries)} {k : String}
    {v : RuleSetEntries} {p : String × RuleSetEntries}
    (h : p ∈ updateKey st k v) : p ∈ st ∨ p = (k, v) := by
  induction st with
  | nil => simp [updateKey] at h
  | cons q rest ih =>
    obtain ⟨k', es'⟩ := q
    simp only [updateKey] at h
    split at h
    · next heq =>
      rcases List.mem_cons.mp h with h1 | h1
      · subst heq; exact Or.inr h1
      · exact Or.inl (List.mem_cons_of_mem _ h1)
    · rcases List.mem_cons.mp h with h1 | h1
      · exact Or.inl (h1 ▸ List.mem_cons_self _ _)
      · rcases ih h1 with h2 | h2
        · exact Or.inl (List.mem_cons_of_mem _ h2)
        · exact Or.inr h2

/-- Updating a key appended to a list that did not contain it rewrites the
appended pair. -/

theorem updateKey_append {st : List (String × RuleSetEntries)} {k : String}
    (h : lookupKey st k = none) (v v' : RuleSetEntries) :
    updateKey (st ++ [(k, v)]) k v' = st ++ [(k, v')] := by
  induction st with
  | nil => simp [updateKey]
  | cons p rest ih =>
    obtain ⟨k', es'⟩ := p
    simp only [lookupKey] at h
    split at h
    · exact absurd h (by simp)
    · next hne =>
      simp only [List.cons_append, updateKey, if_neg hne]
      exact congrArg (List.cons (k', es')) (ih h)

/-- `find?` over a list whose final element is the only match. -/

theorem find?_append_last {l : List RuleSetEntry} {p : RuleSetEntry → Bool}
    {e : RuleSetEntry} (hl : ∀ x ∈ l, p x = false) (he : p e = true) :
    (l ++ [e]).find? p = some e := by
  induction l with
  | nil => simp [List.find?_cons, he]
  | cons x rest ih =>
    have hx := hl x (List.mem_cons_self _ _)
    simp only [List.cons_append, List.find?_cons, hx]
    exact ih (fun y hy => hl y (List.mem_cons_of_mem _ hy))

theorem InvKey_mono {n n' : Nat} (h : n ≤ n') {es : RuleSetEntries}
    (hes : InvKey n es) : InvKey n' es :=
  ⟨fun x hx => lt_of_lt_of_le (hes.1 x hx) h, hes.2⟩

theorem CacheInv_new : CacheInv NewRuleSetCache := by
  intro p hp
  simp [NewRuleSetCache] at hp

/-- The `Prune` inner loop is the filter that keeps the latest entry and the
young entries, paired with the count of dropped (non-latest, strictly too
old) entries. -/

theorem pruneEntriesByAge_eq (latest : Nat) (now maxAge : Int)
    (l : List RuleSetEntry) :
    pruneEntriesByAge latest now maxAge l =
      (l.filter (fun e => e.UUID == latest || decide (now - e.Timestamp ≤ maxAge)),
       l.countP (fun e => !(e.UUID == latest) && decide (maxAge < now - e.Timestamp))) := by
  induction l with
  | nil => rfl
  | cons e rest ih =>
    simp only [pruneEntriesByAge, ih, List.filter_cons, List.countP_cons]
    by_cases h1 : e.UUID = latest
    · simp [h1]
    · by_cases h2 : now - e.Timestamp ≤ maxAge
      · simp [h1, h2, not_lt.mpr h2]
      · simp [h1, h2, lt_of_not_ge h2]

/-- Lookups through a key-preserving value rewrite. -/

theorem lookupKey_map (g : RuleSetEntries → RuleSetEntries)
    (st : List (String × RuleSetEntries)) (k : String) :
    lookupKey (st.map (fun p => (p.1, g p.2))) k = (lookupKey st k).map g := by
  induction st with
  | nil => rfl
  | cons p rest ih =>
    obtain ⟨k', es'⟩ := p
    simp only [List.map_cons, lookupKey]
    split
    · rfl
    · exact ih

theorem Put_nextUUID (c : RuleSetCache) (i r : String) (now : Int) :
    (c.Put i r now).nextUUID = c.nextUUID + 1 := by
  simp only [RuleSetCache.Put]
  split <;> rfl

/-- `Put` preserves well-formedness. -/

theorem Put_inv {c : RuleSetCache} (hc : CacheInv c) (i r : String) (now : Int) :
    CacheInv (c.Put i r now) := by
  have hstep : ∀ p ∈ c.entries, InvKey (c.nextUUID + 1) p.2 :=
    fun p hp => InvKey_mono (Nat.le_succ _) (hc p hp)
  simp only [RuleSetCache.Put]
  cases h : lookupKey c.entries i with
  | none =>
    intro p hp
    rcases List.mem_append.mp hp with h1 | h1
    · exact hstep p h1
    · rcases List.mem_singleton.mp h1 with rfl
      refine ⟨?_, [], ⟨c.nextUUID, now, r⟩, rfl, rfl, ?_⟩
      · intro x hx
        rcases List.mem_singleton.mp hx with rfl
        exact Nat.lt_succ_self _
      · intro x hx
        simp at hx
  | some es =>
    have hes : InvKey c.nextUUID es := hc (i, es) (lookupKey_mem h)
    intro p hp
    rcases updateKey_mem hp with h1 | h1
    · exact hstep p h1
    · subst h1
      refine ⟨?_, es.Entries, ⟨c.nextUUID, now, r⟩, rfl, rfl, ?_⟩
      · intro x hx
        rcases List.mem_append.mp hx with h2 | h2
        · exact lt_trans (hes.1 x h2) (Nat.lt_succ_self _)
        · rcases List.mem_singleton.mp h2 with rfl
          exact Nat.lt_succ_self _
      · intro x hx
        exact Nat.ne_of_lt (hes.1 x hx)

/-- `Put` makes the new entry the observable latest for its key and leaves
every other key's observable latest unchanged. -/

theorem Put_Get {c : RuleSetCache} (hc : CacheInv c) (i r : String) (now : Int)
    (k : String) :
    (c.Put i r now).Get k =
      if i = k then some ⟨c.nextUUID, now, r⟩ else c.Get k := by
  simp only [RuleSetCache.Put, RuleSetCache.Get]
  cases h : lookupKey c.entries i with
  | none =>
    by_cases hik : i = k
    · subst hik
      simp only [if_pos rfl, getLatestIn, lookupKey_append_self h]
      simp [List.find?_cons]
    · simp only [if_neg hik, getLatestIn, lookupKey_append_other hik]
  | some es =>
    have hes : InvKey c.nextUUID es := hc (i, es) (lookupKey_mem h)
    by_cases hik : i = k
    · subst hik
      simp only [if_pos rfl, getLatestIn, updateKey_lookup_self h]
      have hlen : (es.Entries ++ [(⟨c.nextUUID, now, r⟩ : RuleSetEntry)]).length ≠ 0 := by
        simp
      rw [if_neg hlen]
      refine find?_append_last ?_ (by simp)
      intro x hx
      simpa using Nat.ne_of_lt (hes.1 x hx)
    · simp only [if_neg hik, getLatestIn, updateKey_lookup_other hik]

theorem Prune_nextUUID (c : RuleSetCache) (now maxAge : Int) :
    (c.Prune now maxAge).1.nextUUID = c.nextUUID := by
  simp only [RuleSetCache.Prune]
  split <;> rfl

/-- Age pruning of a well-formed history keeps a sublist of the non-latest
prefix followed by the untouched latest entry. -/

theorem pruneEntriesByAge_decomp {es : RuleSetEntries} {l : List RuleSetEntry}
    {e : RuleSetEntry} (hsplit : es.Entries = l ++ [e]) (he : e.UUID = es.Latest)
    (now maxAge : Int) :
    ∃ l', (pruneEntriesByAge es.Latest now maxAge es.Entries).1 = l' ++ [e] ∧
      ∀ x ∈ l', x ∈ l := by
  refine ⟨l.filter fun x =>
      x.UUID == es.Latest || decide (now - x.Timestamp ≤ maxAge), ?_, ?_⟩
  · rw [hsplit, pruneEntriesByAge_eq, List.filter_append]
    simp [he]
  · intro x hx
    exact List.mem_of_mem_filter hx

/-- `Prune` preserves well-formedness. -/

theorem Prune_inv {c : RuleSetCache} (hc : CacheInv c) (now maxAge : Int) :
    CacheInv (c.Prune now maxAge).1 := by
  simp only [RuleSetCache.Prune]
  split
  · exact hc
  · intro p hp
    rcases List.mem_map.mp hp with ⟨q, hq, rfl⟩
    obtain ⟨hbound, l, e, hsplit, he, hl⟩ := hc q hq
    obtain ⟨l', hres, hsub⟩ := pruneEntriesByAge_decomp hsplit he now maxAge
    refine ⟨?_, l', e, hres, he, ?_⟩
    · intro x hx
      rw [hres] at hx
      rcases List.mem_append.mp hx with h1 | h1
      · exact hbound x (hsplit ▸ List.mem_append_left _ (hsub x h1))
      · rcases List.mem_singleton.mp h1 with rfl
        exact hbound x (hsplit ▸ List.mem_append_right _ (List.mem_singleton.mpr rfl))
    · intro x hx
      exact hl x (hsub x hx)

/-- `Prune` never changes the observable latest entry of any key. -/

theorem Prune_Get {c : RuleSetCache} (hc : CacheInv c) (now maxAge : Int)
    (k : String) :
    (c.Prune now maxAge).1.Get k = c.Get k := by
  simp only [RuleSetCache.Prune]
  split
  · rfl
  · simp only [RuleSetCache.Get, getLatestIn,
      lookupKey_map (fun es => (⟨es.Latest,
        (pruneEntriesByAge es.Latest now maxAge es.Entries).1⟩ : RuleSetEntries))
        c.entries k]
    cases h : lookupKey c.entries k with
    | none => rfl
    | some es =>
      have hkey := hc (k, es) (lookupKey_mem h)
      obtain ⟨hbound, l, e, hsplit, he, hl⟩ := hkey
      obtain ⟨l', hres, hsub⟩ := pruneEntriesByAge_decomp hsplit he now maxAge
      simp only [Option.map_some']
      rw [hres, hsplit]
      have h1 : (l' ++ [e]).length ≠ 0 := by simp
      have h2 : (l ++ [e]).length ≠ 0 := by simp
      rw [if_neg h1, if_neg h2]
      rw [find?_append_last (fun x hx => by simpa using hl x (hsub x hx)) (by simp [he]),
        find?_append_last (fun x hx => by simpa using hl x hx) (by simp [he])]

/-- Size pruning of a well-formed history keeps a sublist of the non-latest
prefix followed by the untouched latest entry, whatever the running size and
counters. -/

theorem pruneEntriesBySize_decomp {latest : Nat} (m : Int)
    (l : List RuleSetEntry) (e : RuleSetEntry) (he : e.UUID = latest)
    (hl : ∀ x ∈ l, x.UUID ≠ latest) :
    ∀ (cur : Int) (p : Nat),
      ∃ l', (pruneEntriesBySize latest m (l ++ [e]) cur p).1 = l' ++ [e] ∧
        ∀ x ∈ l', x ∈ l := by
  induction l with
  | nil =>
    intro cur p
    refine ⟨[], ?_, by simp⟩
    simp [pruneEntriesBySize, he]
  | cons x rest ih =>
    intro cur p
    have hx : x.UUID ≠ latest := hl x (List.mem_cons_self _ _)
    have hrest : ∀ y ∈ rest, y.UUID ≠ latest :=
      fun y hy => hl y (List.mem_cons_of_mem _ hy)
    simp only [List.cons_append, pruneEntriesBySize, if_neg hx]
    split
    · obtain ⟨l', h1, h2⟩ :=
        ih hrest (cur - (x.Rules.utf8ByteSize : Int)) (p + 1)
      exact ⟨l', h1, fun y hy => List.mem_cons_of_mem _ (h2 y hy)⟩
    · obtain ⟨l', h1, h2⟩ := ih hrest cur p
      refine ⟨x :: l', ?_, ?_⟩
      · simp [h1]
      · intro y hy
        rcases List.mem_cons.mp hy with rfl | hy'
        · exact List.mem_cons_self _ _
        · exact List.mem_cons_of_mem _ (h2 y hy')

/-- The `PruneBySize` outer loop preserves well-formedness of the state and
the observable latest entry of every key, for any iteration order, running
size and counters. -/

theorem pruneKeysBySize_pres (m : Int) (n : Nat) :
    ∀ (order : List String) (st : List (String × RuleSetEntries)) (cur : Int)
      (p : Nat), StInv n st →
      StInv n (pruneKeysBySize m order st cur p).1 ∧
      ∀ k, getLatestIn (pruneKeysBySize m order st cur p).1 k = getLatestIn st k := by
  intro order
  induction order with
  | nil => exact fun st cur p hst => ⟨hst, fun _ => rfl⟩
  | cons k rest ih =>
    intro st cur p hst
    simp only [pruneKeysBySize]
    split
    · exact ⟨hst, fun _ => rfl⟩
    · cases h : lookupKey st k with
      | none => exact ih st cur p hst
      | some es =>
        obtain ⟨hbound, l, e, hsplit, he, hl⟩ := hst (k, es) (lookupKey_mem h)
        obtain ⟨l', hres, hsub⟩ :=
          pruneEntriesBySize_decomp m l e he hl cur p
        rw [← hsplit] at hres
        have hmeml : ∀ x ∈ l', x ∈ es.Entries := by
          intro x hx
          rw [hsplit]
          exact List.mem_append_left _ (hsub x hx)
        have hmeme : e ∈ es.Entries := by
          rw [hsplit]
          exact List.mem_append_right _ (List.mem_singleton.mpr rfl)
        have hinv' : InvKey n (⟨es.Latest,
            (pruneEntriesBySize es.Latest m es.Entries cur p).1⟩ : RuleSetEntries) := by
          refine ⟨?_, l', e, hres, he, fun x hx => hl x (hsub x hx)⟩
          intro x hx
          rw [hres] at hx
          rcases List.mem_append.mp hx with h1 | h1
          · exact hbound x (hmeml x h1)
          · rcases List.mem_singleton.mp h1 with rfl
            exact hbound x hmeme
        have hst' : StInv n (updateKey st k
            ⟨es.Latest, (pruneEntriesBySize es.Latest m es.Entries cur p).1⟩) := by
          intro q hq
          rcases updateKey_mem hq with h1 | h1
          · exact hst q h1
          · rw [h1]
            exact hinv'
        obtain ⟨ihinv, ihget⟩ := ih _ _ _ hst'
        refine ⟨ihinv, fun k' => (ihget k').trans ?_⟩
        by_cases hkk : k = k'
        · subst hkk
          simp only [getLatestIn, updateKey_lookup_self h, h]
          rw [hres, hsplit]
          have h1 : (l' ++ [e]).length ≠ 0 := by simp
          have h2 : (l ++ [e]).length ≠ 0 := by simp
          rw [if_neg h1, if_neg h2]
          rw [find?_append_last (fun x hx => by simpa using hl x (hsub x hx))
              (by simp [he]),
            find?_append_last (fun x hx => by simpa using hl x hx) (by simp [he])]
        · simp only [getLatestIn, updateKey_lookup_other hkk]

theorem PruneBySize_nextUUID (c : RuleSetCache) (order : List String) (m : Int) :
    (c.PruneBySize order m).1.nextUUID = c.nextUUID := by
  simp only [RuleSetCache.PruneBySize]
  split <;> rfl

/-- `PruneBySize` preserves well-formedness. -/

theorem PruneBySize_inv {c : RuleSetCache} (hc : CacheInv c)
    (order : List String) (m : Int) : CacheInv (c.PruneBySize order m).1 := by
  simp only [RuleSetCache.PruneBySize]
  split
  · exact hc
  · exact (pruneKeysBySize_pres m c.nextUUID order c.entries _ 0 hc).1

/-- `PruneBySize` never changes the observable latest entry of any key. -/

theorem PruneBySize_Get {c : RuleSetCache} (hc : CacheInv c)
    (order : List String) (m : Int) (k : String) :
    (c.PruneBySize order m).1.Get k = c.Get k := by
  simp only [RuleSetCache.PruneBySize]
  split
  · rfl
  · exact (pruneKeysBySize_pres m c.nextUUID order c.entries _ 0 hc).2 k

/-- Every operation preserves well-formedness. -/

theorem applyOp_inv {c : RuleSetCache} (hc : CacheInv c) (op : CacheOp) :
    CacheInv (applyOp c op) := by
  cases op with
  | put i r now => exact Put_inv hc i r now
  | prune now maxAge => exact Prune_inv hc now maxAge
  | pruneBySize order m => exact PruneBySize_inv hc order m

/-- Running a well-formed cache through any operation sequence keeps it
well-formed, and the observable latest entry of every key afterwards is the
entry appended by the most recent `Put` for that key (or the starting
latest when the trace never wrote the key). -/

theorem applyOps_Get (ops : List CacheOp) :
    ∀ (c : RuleSetCache), CacheInv c → ∀ (k : String),
      CacheInv (applyOps ops c) ∧
      (applyOps ops c).Get k = traceFrom ops c.nextUUID (c.Get k) k := by
  induction ops with
  | nil => exact fun c hc k => ⟨hc, rfl⟩
  | cons op rest ih =>
    intro c hc k
    cases op with
    | put i r now =>
      obtain ⟨h1, h2⟩ := ih (c.Put i r now) (Put_inv hc i r now) k
      refine ⟨h1, ?_⟩
      simp only [applyOps, applyOp, traceFrom]
      rw [h2, Put_nextUUID, Put_Get hc i r now k]
    | prune now maxAge =>
      obtain ⟨h1, h2⟩ := ih (c.Prune now maxAge).1 (Prune_inv hc now maxAge) k
      refine ⟨h1, ?_⟩
      simp only [applyOps, applyOp, traceFrom]
      rw [h2, Prune_nextUUID, Prune_Get hc now maxAge k]
    | pruneBySize order m =>
      obtain ⟨h1, h2⟩ := ih (c.PruneBySize order m).1 (PruneBySize_inv hc order m) k
      refine ⟨h1, ?_⟩
      simp only [applyOps, applyOp, traceFrom]
      rw [h2, PruneBySize_nextUUID, PruneBySize_Get hc order m k]

/-- A well-formed history has exactly one entry carrying the latest id. -/

theorem InvKey_countP {n : Nat} {es : RuleSetEntries} (hes : InvKey n es) :
    es.Entries.countP (fun e => e.UUID == es.Latest) = 1 := by
  obtain ⟨-, l, e, hsplit, he, hl⟩ := hes
  rw [hsplit, List.countP_append]
  have h0 : l.countP (fun x => x.UUID == es.Latest) = 0 :=
    List.countP_eq_zero.mpr (fun x hx => by simpa using hl x hx)
  simp [h0, List.countP_cons, he]

/-- C1: after any finite sequence of `Put`, `Prune` and `PruneBySize`
operations, every present key has a non-empty entry list in which exactly
one entry carries the history's latest id, and the observable latest entry
is exactly the entry appended by the most recent `Put` for that key —
`Prune` and `PruneBySize` never remove or replace it. -/

theorem C1_version_history_invariant (ops : List CacheOp) (k : String) :
    (∀ es, lookupKey (applyOps ops NewRuleSetCache).entries k = some es →
        es.Entries ≠ [] ∧ es.Entries.countP (fun e => e.UUID == es.Latest) = 1) ∧
    (applyOps ops NewRuleSetCache).Get k = traceFrom ops 0 none k := by
  obtain ⟨hinv, hget⟩ := applyOps_Get ops NewRuleSetCache CacheInv_new k
  refine ⟨?_, hget⟩
  intro es hes
  have h := hinv (k, es) (lookupKey_mem hes)
  have hcnt := InvKey_countP h
  refine ⟨?_, hcnt⟩
  intro hnil
  rw [show es.Entries = [] from hnil] at hcnt
  simp at hcnt

/-- Witness for C1 at a concrete trace: two Puts for "k", an age prune that
drops the first entry, and a size prune; the surviving history is exactly
the second Put's entry, which is also what the trace replay predicts. -/

theorem C1_witness :
    lookupKey (applyOps [CacheOp.put "k" "a" 0, CacheOp.put "k" "b" 1,
        CacheOp.prune 1 0, CacheOp.pruneBySize ["k"] 0] NewRuleSetCache).entries
        "k" = some ⟨1, [⟨1, 1, "b"⟩]⟩ ∧
    ([(⟨1, 1, "b"⟩ : RuleSetEntry)] ≠ []) ∧
    ([(⟨1, 1, "b"⟩ : RuleSetEntry)].countP (fun e => e.UUID == 1) = 1) ∧
    (applyOps [CacheOp.put "k" "a" 0, CacheOp.put "k" "b" 1,
        CacheOp.prune 1 0, CacheOp.pruneBySize ["k"] 0] NewRuleSetCache).Get "k" =
      traceFrom [CacheOp.put "k" "a" 0, CacheOp.put "k" "b" 1,
        CacheOp.prune 1 0, CacheOp.pruneBySize ["k"] 0] 0 none "k" := by
  have h := C1_version_history_invariant [CacheOp.put "k" "a" 0,
    CacheOp.put "k" "b" 1, CacheOp.prune 1 0, CacheOp.pruneBySize ["k"] 0] "k"
  have hlk : lookupKey (applyOps [CacheOp.put "k" "a" 0, CacheOp.put "k" "b" 1,
      CacheOp.prune 1 0, CacheOp.pruneBySize ["k"] 0] NewRuleSetCache).entries
      "k" = some ⟨1, [⟨1, 1, "b"⟩]⟩ := by decide
  obtain ⟨hne, hcnt⟩ := h.1 _ hlk
  exact ⟨hlk, hne, hcnt, h.2⟩

/-- The kept entries of each history under `Prune` are exactly the filter
keeping the latest entry and the entries not strictly older than
`now - maxAge`. -/

theorem pruneEntriesByAge_filter (p : String × RuleSetEntries) (now maxAge : Int) :
    (pruneEntriesByAge p.2.Latest now maxAge p.2.Entries).1 =
      p.2.Entries.filter (fun e =>
        e.UUID == p.2.Latest || decide (now - maxAge ≤ e.Timestamp)) := by
  rw [pruneEntriesByAge_eq]
  refine List.filter_congr ?_
  intro e _
  by_cases h : now - maxAge ≤ e.Timestamp
  · simp [h, show now - e.Timestamp ≤ maxAge by omega]
  · simp [h, show ¬(now - e.Timestamp ≤ maxAge) by omega]

/-- The per-history count returned by `Prune` is exactly the number of
non-latest entries strictly older than `now - maxAge`. -/

theorem pruneEntriesByAge_count (p : String × RuleSetEntries) (now maxAge : Int) :
    (pruneEntriesByAge p.2.Latest now maxAge p.2.Entries).2 =
      p.2.Entries.countP (fun e =>
        !(e.UUID == p.2.Latest) && decide (e.Timestamp < now - maxAge)) := by
  rw [pruneEntriesByAge_eq]
  refine List.countP_congr ?_
  intro e _
  by_cases h : e.Timestamp < now - maxAge
  · simp [h, show maxAge < now - e.Timestamp by omega]
  · simp [h, show ¬(maxAge < now - e.Timestamp) by omega]

/-- C4: `Prune(maxAge)` removes from every key exactly the non-latest
entries whose timestamp is strictly older than `now - maxAge` (a filter, so
the relative order of survivors is preserved and every latest entry
survives irrespective of age), and returns the number of entries removed;
concretely, a key holding two 48-hour-old non-latest entries and a fresh
latest entry yields return value 2 and one surviving entry under
`Prune(24h)`. -/

theorem C4_prune_correctness (c : RuleSetCache) (now maxAge : Int) :
    ((c.Prune now maxAge).1.entries =
        c.entries.map (fun p => (p.1, ⟨p.2.Latest,
          p.2.Entries.filter (fun e =>
            e.UUID == p.2.Latest || decide (now - maxAge ≤ e.Timestamp))⟩)) ∧
      (c.Prune now maxAge).2 =
        (c.entries.map (fun p => p.2.Entries.countP (fun e =>
          !(e.UUID == p.2.Latest) && decide (e.Timestamp < now - maxAge)))).sum) ∧
    (((((NewRuleSetCache.Put "k" "a" (-172800)).Put "k" "b" (-172800)).Put
        "k" "c" 0).Prune 0 86400).2 = 2 ∧
      (((((NewRuleSetCache.Put "k" "a" (-172800)).Put "k" "b"
        (-172800)).Put "k" "c" 0).Prune 0 86400).1).CountEntries "k" = 1 ∧
      (((((NewRuleSetCache.Put "k" "a" (-172800)).Put "k" "b"
        (-172800)).Put "k" "c" 0).Prune 0 86400).1).Get "k" = some ⟨2, 0, "c"⟩) := by
  refine ⟨⟨?_, ?_⟩, by decide, by decide, by decide⟩
  · simp only [RuleSetCache.Prune]
    split
    · next hemp =>
      rw [List.isEmpty_iff.mp hemp]
      rfl
    · exact List.map_congr_left
        (fun p _ => by rw [pruneEntriesByAge_filter p now maxAge])
  · simp only [RuleSetCache.Prune]
    split
    · next hemp =>
      rw [List.isEmpty_iff.mp hemp]
      rfl
    · exact congrArg List.sum (List.map_congr_left
        (fun p _ => pruneEntriesByAge_count p now maxAge))

/-- `Put` of an absent key appends a fresh one-entry history. -/

theorem Put_new {st : List (String × RuleSetEntries)} {k : String}
    (hk : lookupKey st k = none) (n : Nat) (r : String) (t : Int) :
    (⟨st, n⟩ : RuleSetCache).Put k r t =
      ⟨st ++ [(k, ⟨n, [⟨n, t, r⟩]⟩)], n + 1⟩ := by
  simp only [RuleSetCache.Put, hk]

/-- `Put` of a key sitting as the appended last pair extends its history in
place. -/

theorem Put_last {st : List (String × RuleSetEntries)} {k : String}
    (hk : lookupKey st k = none) (es : RuleSetEntries) (n : Nat) (r : String)
    (t : Int) :
    (⟨st ++ [(k, es)], n⟩ : RuleSetCache).Put k r t =
      ⟨st ++ [(k, ⟨n, es.Entries ++ [⟨n, t, r⟩]⟩)], n + 1⟩ := by
  simp only [RuleSetCache.Put, lookupKey_append_self hk, updateKey_append hk]

/-- C5: three `Put`s on a fresh key `k` with no intervening prunes leave the
entry list `[a, b, c]` in oldest-first order with consecutive fresh
identifiers, the latest id is the third entry's id and `Get` observes the
third entry; the three identifiers are pairwise distinct and distinct from
every identifier already in the cache (so two `Put`s of byte-identical
blobs — `a`, `b`, `d` unconstrained and possibly equal — still get distinct
identifiers). -/

theorem C5_put_ordering {c : RuleSetCache} (hc : CacheInv c) (k a b d : String)
    (t1 t2 t3 : Int) (hk : lookupKey c.entries k = none) :
    lookupKey (((c.Put k a t1).Put k b t2).Put k d t3).entries k =
      some ⟨c.nextUUID + 2,
        [⟨c.nextUUID, t1, a⟩, ⟨c.nextUUID + 1, t2, b⟩, ⟨c.nextUUID + 2, t3, d⟩]⟩ ∧
    (((c.Put k a t1).Put k b t2).Put k d t3).Get k =
      some ⟨c.nextUUID + 2, t3, d⟩ ∧
    (∀ p ∈ c.entries, ∀ x ∈ p.2.Entries,
      x.UUID ≠ c.nextUUID ∧ x.UUID ≠ c.nextUUID + 1 ∧ x.UUID ≠ c.nextUUID + 2) ∧
    c.nextUUID ≠ c.nextUUID + 1 ∧ c.nextUUID ≠ c.nextUUID + 2 ∧
    c.nextUUID + 1 ≠ c.nextUUID + 2 := by
  have hget : (((c.Put k a t1).Put k b t2).Put k d t3).Get k =
      some ⟨c.nextUUID + 2, t3, d⟩ := by
    rw [Put_Get (Put_inv (Put_inv hc k a t1) k b t2) k d t3 k, if_pos rfl,
      Put_nextUUID, Put_nextUUID]
  have hfresh : ∀ p ∈ c.entries, ∀ x ∈ p.2.Entries,
      x.UUID ≠ c.nextUUID ∧ x.UUID ≠ c.nextUUID + 1 ∧ x.UUID ≠ c.nextUUID + 2 := by
    intro p hp x hx
    have hb := (hc p hp).1 x hx
    exact ⟨by omega, by omega, by omega⟩
  refine ⟨?_, hget, hfresh, by omega, by omega, by omega⟩
  obtain ⟨st, n⟩ := c
  rw [Put_new hk n a t1, Put_last hk _ (n + 1) b t2, Put_last hk _ (n + 2) d t3]
  exact lookupKey_append_self hk _

/-- Witness for C5 at a concrete run: three `Put`s of the byte-identical
blob "r" on a fresh key of the empty cache. -/

theorem C5_witness :
    lookupKey (((NewRuleSetCache.Put "k" "r" 0).Put "k" "r" 1).Put "k" "r" 2).entries
        "k" = some ⟨2, [⟨0, 0, "r"⟩, ⟨1, 1, "r"⟩, ⟨2, 2, "r"⟩]⟩ ∧
    (((NewRuleSetCache.Put "k" "r" 0).Put "k" "r" 1).Put "k" "r" 2).Get "k" =
      some ⟨2, 2, "r"⟩ ∧
    (0 : Nat) ≠ 1 ∧ (0 : Nat) ≠ 2 ∧ (1 : Nat) ≠ 2 := by
  have h := C5_put_ordering CacheInv_new "k" "r" "r" "r" 0 1 2 (by decide)
  exact ⟨h.1, h.2.1, h.2.2.2⟩

/-- C8 counterexample: a cache built by one fixed insertion sequence on
which two map iteration orders — both permutations of the key set, hence
both orders Go may produce for the same insertion order — make
`PruneBySize(12)` remove different entries and leave different states. -/

theorem C8_counterexample :
    ((((NewRuleSetCache.Put "A" "0123456789" 0).Put "A" "x" 1).Put "B" "y"
        2).Put "B" "z" 3).PruneBySize ["A", "B"] 12 ≠
      ((((NewRuleSetCache.Put "A" "0123456789" 0).Put "A" "x" 1).Put "B" "y"
        2).Put "B" "z" 3).PruneBySize ["B", "A"] 12 ∧
    ["A", "B"].Perm ((((NewRuleSetCache.Put "A" "0123456789" 0).Put "A" "x"
        1).Put "B" "y" 2).Put "B" "z" 3).ListKeys ∧
    ["B", "A"].Perm ((((NewRuleSetCache.Put "A" "0123456789" 0).Put "A" "x"
        1).Put "B" "y" 2).Put "B" "z" 3).ListKeys := by
  refine ⟨by decide, by decide, by decide⟩

/-- C8 (amended): `PruneBySize` is a deterministic function of the cache
state together with the map's key iteration order — two runs with equal
states and equal iteration orders remove the same entries and leave
identical cache states; it is not a function of the insertion order alone,
because Go randomizes the iteration order between runs. -/

theorem C8_pruneBySize_determinism (c1 c2 : RuleSetCache)
    (o1 o2 : List String) (m1 m2 : Int) (hc : c1 = c2) (ho : o1 = o2)
    (hm : m1 = m2) : c1.PruneBySize o1 m1 = c2.PruneBySize o2 m2 := by
  subst hc
  subst ho
  subst hm
  rfl

/-- Witness for the amended C8 at a concrete state and order. -/

theorem C8_witness :
    ((((NewRuleSetCache.Put "A" "0123456789" 0).Put "A" "x" 1).Put "B" "y"
        2).Put "B" "z" 3).PruneBySize ["A", "B"] 12 =
      ((((NewRuleSetCache.Put "A" "0123456789" 0).Put "A" "x" 1).Put "B" "y"
        2).Put "B" "z" 3).PruneBySize ["A", "B"] 12 :=
  C8_pruneBySize_determinism _ _ _ _ _ _ rfl rfl rfl

/-- `Prune` keeps exactly the keys that were present. -/

theorem Prune_presence (c : RuleSetCache) (now maxAge : Int) (k : String) :
    lookupKey (c.Prune now maxAge).1.entries k = none ↔
      lookupKey c.entries k = none := by
  simp only [RuleSetCache.Prune]
  split
  · exact Iff.rfl
  · rw [lookupKey_map (fun es => (⟨es.Latest,
      (pruneEntriesByAge es.Latest now maxAge es.Entries).1⟩ : RuleSetEntries))
      c.entries k]
    cases lookupKey c.entries k <;> simp

/-- The `PruneBySize` outer loop keeps exactly the keys that were present. -/

theorem pruneKeysBySize_presence (m : Int) :
    ∀ (order : List String) (st : List (String × RuleSetEntries)) (cur : Int)
      (p : Nat) (k : String),
      lookupKey (pruneKeysBySize m order st cur p).1 k = none ↔
        lookupKey st k = none := by
  intro order
  induction order with
  | nil => exact fun st cur p k => Iff.rfl
  | cons k' rest ih =>
    intro st cur p k
    simp only [pruneKeysBySize]
    split
    · exact Iff.rfl
    · cases h : lookupKey st k' with
      | none => exact ih st cur p k
      | some es =>
        refine (ih _ _ _ k).trans ?_
        by_cases hkk : k' = k
        · subst hkk
          rw [updateKey_lookup_self h, h]
          simp
        · rw [updateKey_lookup_other hkk]

/-- `PruneBySize` keeps exactly the keys that were present. -/

theorem PruneBySize_presence (c : RuleSetCache) (order : List String) (m : Int)
    (k : String) :
    lookupKey (c.PruneBySize order m).1.entries k = none ↔
      lookupKey c.entries k = none := by
  simp only [RuleSetCache.PruneBySize]
  split
  · exact Iff.rfl
  · exact pruneKeysBySize_presence m order c.entries _ 0 k

/-- One sweeper tick keeps every present key present. -/

theorem gcTick_presence (c : RuleSetCache) (t : GCTick) (k : String)
    (h : lookupKey c.entries k ≠ none) :
    lookupKey (gcTick c t).entries k ≠ none := by
  have h1 : lookupKey ((c.Prune t.now t.maxAge).1).entries k ≠ none :=
    fun hn => h ((Prune_presence c t.now t.maxAge k).mp hn)
  show lookupKey
      (if ((c.Prune t.now t.maxAge).1.TotalSize : Int) > t.maxSize then
        ((c.Prune t.now t.maxAge).1.PruneBySize t.order t.maxSize).1
      else (c.Prune t.now t.maxAge).1).entries k ≠ none
  split
  · exact fun hn =>
      h1 ((PruneBySize_presence (c.Prune t.now t.maxAge).1 t.order t.maxSize k).mp hn)
  · exact h1

/-- Any sequence of sweeper ticks keeps every present key present. -/

theorem runGC_presence (ticks : List GCTick) :
    ∀ (c : RuleSetCache) (k : String), lookupKey c.entries k ≠ none →
      lookupKey (runGC ticks c).entries k ≠ none := by
  induction ticks with
  | nil => exact fun c k h => h
  | cons t rest ih => exact fun c k h => ih _ _ (gcTick_presence c t k h)

/-- C9 counterexample: the orphaned cache key "n/s" (its RuleSet deleted) is
never removed by any sequence of sweeper invocations — age-based pruning
unconditionally preserves each key's latest entry and no code path deletes
a key, so the claimed eventual removal is impossible. -/

theorem C9_counterexample :
    keyNeverRemoved (NewRuleSetCache.Put "n/s" "rules" 0) "n/s" :=
  fun ticks => runGC_presence ticks _ "n/s" (by decide)

/-- C9 (amended): for a cache key whose RuleSet has been deleted, the
reconciler performs no action (cache, events and result untouched), and the
key is never removed from the cache: every sequence of sweeper invocations
(age- and size-based pruning) leaves the key present — it persists for the
process lifetime, only its non-latest entries age out. -/

theorem C9_orphan_persistence (fetch : String → CMFetch) (c : RuleSetCache)
    (now : Int) (k : String) (h : lookupKey c.entries k ≠ none) :
    (Reconcile none fetch c now).cache = c ∧
    (Reconcile none fetch c now).events = [] ∧
    (Reconcile none fetch c now).requeue = false ∧
    (Reconcile none fetch c now).isErr = false ∧
    ∀ ticks : List GCTick, lookupKey (runGC ticks c).entries k ≠ none :=
  ⟨rfl, rfl, rfl, rfl, fun ticks => runGC_presence ticks c k h⟩

/-- Witness for the amended C9 at a concrete orphaned key. -/

theorem C9_witness :
    (Reconcile none (fun _ => CMFetch.notFoundErr)
        (NewRuleSetCache.Put "n/s" "rules" 0) 0).cache =
      NewRuleSetCache.Put "n/s" "rules" 0 ∧
    (Reconcile none (fun _ => CMFetch.notFoundErr)
        (NewRuleSetCache.Put "n/s" "rules" 0) 0).events = [] ∧
    keyNeverRemoved (NewRuleSetCache.Put "n/s" "rules" 0) "n/s" := by
  have h := C9_orphan_persistence (fun _ => CMFetch.notFoundErr)
    (NewRuleSetCache.Put "n/s" "rules" 0) 0 "n/s" (by decide)
  exact ⟨h.1, h.2.1, fun ticks => h.2.2.2.2 ticks⟩

/-- After `SetStatusCondition`, the first condition of the written type
carries the new status. -/

theorem statusOf_set (conds : List Condition) (nc : Condition) :
    statusOf (SetStatusCondition conds nc) nc.type = some nc.status := by
  induction conds with
  | nil => simp [SetStatusCondition, statusOf, FindStatusCondition]
  | cons c rest ih =>
    simp only [SetStatusCondition]
    split
    · next heq => simp [statusOf, FindStatusCondition, heq]
    · next hne => simpa [statusOf, FindStatusCondition, hne] using ih

/-- After `SetStatusCondition`, the first condition of the written type
carries the new reason. -/

theorem reasonOf_set (conds : List Condition) (nc : Condition) :
    reasonOf (SetStatusCondition conds nc) nc.type = some nc.reason := by
  induction conds with
  | nil => simp [SetStatusCondition, reasonOf, FindStatusCondition]
  | cons c rest ih =>
    simp only [SetStatusCondition]
    split
    · next heq => simp [reasonOf, FindStatusCondition, heq]
    · next hne => simpa [reasonOf, FindStatusCondition, hne] using ih

/-- `SetStatusCondition` leaves lookups of other condition types unchanged. -/

theorem find_set_other (conds : List Condition) (nc : Condition) (t : String)
    (h : t ≠ nc.type) :
    FindStatusCondition (SetStatusCondition conds nc) t =
      FindStatusCondition conds t := by
  induction conds with
  | nil => simp [SetStatusCondition, FindStatusCondition, Ne.symm h]
  | cons c rest ih =>
    simp only [SetStatusCondition]
    split
    · next heq =>
      have hct : ¬(c.type = t) := fun hc => h (hc ▸ heq)
      simp [FindStatusCondition, hct]
    · simp only [FindStatusCondition]
      split
      · rfl
      · exact ih

/-- `RemoveStatusCondition` removes every condition of the given type. -/

theorem find_remove_same (conds : List Condition) (t : String) :
    FindStatusCondition (RemoveStatusCondition conds t) t = none := by
  induction conds with
  | nil => rfl
  | cons c rest ih =>
    simp only [RemoveStatusCondition, List.filter_cons] at ih ⊢
    split
    · next hkeep =>
      have hct : ¬(c.type = t) := by simpa using hkeep
      simpa [FindStatusCondition, hct] using ih
    · exact ih

/-- `RemoveStatusCondition` leaves lookups of other condition types
unchanged. -/

theorem find_remove_other (conds : List Condition) (t t' : String)
    (h : t' ≠ t) :
    FindStatusCondition (RemoveStatusCondition conds t) t' =
      FindStatusCondition conds t' := by
  induction conds with
  | nil => rfl
  | cons c rest ih =>
    simp only [RemoveStatusCondition, List.filter_cons] at ih ⊢
    split
    · simp only [FindStatusCondition]
      split
      · rfl
      · exact ih
    · next hdrop =>
      have hct : c.type = t := by simpa using hdrop
      have hne : ¬(c.type = t') := fun hc => h ((hc ▸ hct : t' = t))
      rw [show FindStatusCondition (c :: rest) t' =
        FindStatusCondition rest t' by simp [FindStatusCondition, hne]]
      exact ih

/-- `SetStatusCondition` of one type leaves the sublist of conditions of a
different type exactly as it was. -/

theorem conditionsOfType_set_other (conds : List Condition) (nc : Condition)
    (t : String) (h : nc.type ≠ t) :
    conditionsOfType (SetStatusCondition conds nc) t =
      conditionsOfType conds t := by
  induction conds with
  | nil => simp [SetStatusCondition, conditionsOfType, List.filter_cons, h]
  | cons c rest ih =>
    simp only [SetStatusCondition]
    split
    · next heq =>
      have hct : ¬(c.type = t) := fun hc => h (heq ▸ hc)
      simp [conditionsOfType, List.filter_cons, hct]
    · simp only [conditionsOfType, List.filter_cons] at ih ⊢
      split
      · exact congrArg _ ih
      · exact ih

/-- C7: for every starting condition list, `setStatusReady` results in
Ready=True with the Degraded and Progressing conditions absent;
`setStatusProgressing` results in Progressing=True and Ready=False with the
Degraded conditions left exactly as they were; `setStatusConditionDegraded`
results in Degraded=True and Ready=False with the Progressing condition
absent. -/

theorem C7_condition_helper_frames (conds : List Condition) (generation : Int)
    (reason message : String) (now : Int) :
    (statusOf (setStatusReady conds generation reason message now) "Ready" =
        some "True" ∧
      FindStatusCondition (setStatusReady conds generation reason message now)
        "Degraded" = none ∧
      FindStatusCondition (setStatusReady conds generation reason message now)
        "Progressing" = none) ∧
    (statusOf (setStatusProgressing conds generation reason message now)
        "Progressing" = some "True" ∧
      statusOf (setStatusProgressing conds generation reason message now)
        "Ready" = some "False" ∧
      conditionsOfType (setStatusProgressing conds generation reason message now)
        "Degraded" = conditionsOfType conds "Degraded") ∧
    (statusOf (setStatusConditionDegraded conds generation reason message now)
        "Degraded" = some "True" ∧
      statusOf (setStatusConditionDegraded conds generation reason message now)
        "Ready" = some "False" ∧
      FindStatusCondition
        (setStatusConditionDegraded conds generation reason message now)
        "Progressing" = none) := by
  refine ⟨⟨?_, ?_, ?_⟩, ⟨?_, ?_, ?_⟩, ⟨?_, ?_, ?_⟩⟩
  · unfold setStatusReady statusOf
    rw [find_remove_other _ _ _ (by decide), find_remove_other _ _ _ (by decide)]
    exact statusOf_set conds ⟨"Ready", "True", generation, now, reason, message⟩
  · unfold setStatusReady
    rw [find_remove_other _ _ _ (by decide), find_remove_same]
  · unfold setStatusReady
    rw [find_remove_same]
  · exact statusOf_set _ ⟨"Progressing", "True", generation, now, reason, message⟩
  · unfold setStatusProgressing setConditionTrue statusOf
    rw [find_set_other _ _ _ (by simp)]
    exact statusOf_set conds ⟨"Ready", "False", generation, now, reason, message⟩
  · unfold setStatusProgressing setConditionTrue setConditionFalse
    rw [conditionsOfType_set_other _ _ _ (by simp),
      conditionsOfType_set_other _ _ _ (by simp)]
  · unfold setStatusConditionDegraded statusOf
    rw [find_remove_other _ _ _ (by decide)]
    exact statusOf_set _ ⟨"Degraded", "True", generation, now, reason, message⟩
  · unfold setStatusConditionDegraded setConditionTrue statusOf
    rw [find_remove_other _ _ _ (by decide), find_set_other _ _ _ (by simp)]
    exact statusOf_set conds ⟨"Ready", "False", generation, now, reason, message⟩
  · unfold setStatusConditionDegraded
    rw [find_remove_same]

/-- When every source is a ConfigMap whose fetch carries the `rules` text,
the aggregation loop succeeds with the newline join of the texts in
`spec.rules` order. -/

theorem aggregateLoop_ok (fetch : String → CMFetch) (txt : RuleSource → String) :
    ∀ rules : List RuleSource,
      (∀ r ∈ rules, r.kind = "ConfigMap") →
      (∀ r ∈ rules, cmRules (fetch r.name) = some (txt r)) →
      aggregateLoop fetch rules = .ok (joinWithNewline (rules.map txt)) := by
  intro rules
  induction rules with
  | nil => exact fun _ _ => rfl
  | cons r rest ih =>
    intro hk hr
    have hkr := hk r (List.mem_cons_self _ _)
    have hrr := hr r (List.mem_cons_self _ _)
    have hrec := ih (fun x hx => hk x (List.mem_cons_of_mem _ hx))
      (fun x hx => hr x (List.mem_cons_of_mem _ hx))
    cases hf : fetch r.name with
    | notFoundErr => rw [hf] at hrr; simp [cmRules] at hrr
    | otherErr => rw [hf] at hrr; simp [cmRules] at hrr
    | found d =>
      rw [hf] at hrr
      simp only [cmRules] at hrr
      simp only [aggregateLoop, hkr, hf, hrr, hrec]
      cases rest with
      | nil => simp [joinWithNewline]
      | cons y ys => simp [joinWithNewline]

/-- When every source is a ConfigMap, every found ConfigMap carries the
`rules` key, no fetch fails with a non-NotFound error, and some fetch is
NotFound, the aggregation loop exits with `cmMissing`. -/

theorem aggregateLoop_missing (fetch : String → CMFetch) :
    ∀ rules : List RuleSource,
      (∀ r ∈ rules, r.kind = "ConfigMap") →
      (∀ r ∈ rules, ∀ d, fetch r.name = .found d → lookupStr d "rules" ≠ none) →
      (∀ r ∈ rules, fetch r.name ≠ .otherErr) →
      (∃ r ∈ rules, fetch r.name = .notFoundErr) →
      ∃ name, aggregateLoop fetch rules = .cmMissing name := by
  intro rules
  induction rules with
  | nil =>
    intro _ _ _ hex
    obtain ⟨r, hr, -⟩ := hex
    exact absurd hr (List.not_mem_nil r)
  | cons r rest ih =>
    intro hk hd hn hex
    have hkr := hk r (List.mem_cons_self _ _)
    cases hf : fetch r.name with
    | notFoundErr =>
      exact ⟨r.name, by simp [aggregateLoop, hkr, hf]⟩
    | otherErr => exact absurd hf (hn r (List.mem_cons_self _ _))
    | found d =>
      have hl : lookupStr d "rules" ≠ none :=
        hd r (List.mem_cons_self _ _) d hf
      obtain ⟨v, hv⟩ := Option.ne_none_iff_exists'.mp hl
      obtain ⟨r', hr', hfr'⟩ := hex
      have hr'rest : r' ∈ rest := by
        rcases List.mem_cons.mp hr' with rfl | h1
        · rw [hf] at hfr'; cases hfr'
        · exact h1
      obtain ⟨name, hname⟩ := ih
        (fun x hx => hk x (List.mem_cons_of_mem _ hx))
        (fun x hx => hd x (List.mem_cons_of_mem _ hx))
        (fun x hx => hn x (List.mem_cons_of_mem _ hx))
        ⟨r', hr'rest, hfr'⟩
      exact ⟨name, by simp [aggregateLoop, hkr, hf, hv, hname]⟩

/-- After `setStatusConditionDegraded`, the Degraded condition reads True. -/

theorem degraded_statusOf (conds : List Condition) (generation : Int)
    (reason message : String) (now : Int) :
    statusOf (setStatusConditionDegraded conds generation reason message now)
      "Degraded" = some "True" := by
  unfold setStatusConditionDegraded statusOf
  rw [find_remove_other _ _ _ (by decide)]
  exact statusOf_set _ ⟨"Degraded", "True", generation, now, reason, message⟩

/-- After `setStatusConditionDegraded`, the Degraded condition carries the
given reason. -/

theorem degraded_reasonOf (conds : List Condition) (generation : Int)
    (reason message : String) (now : Int) :
    reasonOf (setStatusConditionDegraded conds generation reason message now)
      "Degraded" = some reason := by
  unfold setStatusConditionDegraded reasonOf
  rw [find_remove_other _ _ _ (by decide)]
  exact reasonOf_set _ ⟨"Degraded", "True", generation, now, reason, message⟩

/-- C2: for a RuleSet whose referenced sources are all ConfigMaps that
exist and carry the `rules` data key, reconciliation stores under
`namespace/name` a fresh entry whose blob is the rule texts joined with
exactly one newline between adjacent texts and no trailing newline, in
`spec.rules` order; in particular texts "x", "y", "z" join to "x\ny\nz". -/

theorem C2_rule_aggregation {c : RuleSetCache} (hc : CacheInv c)
    (rs : RuleSetResource) (fetch : String → CMFetch) (now : Int)
    (txt : RuleSource → String)
    (hk : ∀ r ∈ rs.rules, r.kind = "ConfigMap")
    (hr : ∀ r ∈ rs.rules, cmRules (fetch r.name) = some (txt r)) :
    (Reconcile (some rs) fetch c now).cache.Get (rs.ns ++ "/" ++ rs.name) =
      some ⟨c.nextUUID, now, joinWithNewline (rs.rules.map txt)⟩ ∧
    joinWithNewline ["x", "y", "z"] = "x\ny\nz" := by
  refine ⟨?_, rfl⟩
  simp only [Reconcile, aggregateLoop_ok fetch txt rs.rules hk hr]
  rw [Put_Get hc _ _ now _, if_pos rfl]

/-- Witness for C2: ConfigMaps A, B, C with texts "x", "y", "z" yield the
cache blob "x\ny\nz" under "ns/name". -/

theorem C2_witness :
    (Reconcile (some ⟨"ns", "name", 1, [], [⟨"v1", "ConfigMap", "A"⟩,
        ⟨"v1", "ConfigMap", "B"⟩, ⟨"v1", "ConfigMap", "C"⟩]⟩)
      (fun n => if n = "A" then .found [("rules", "x")]
        else if n = "B" then .found [("rules", "y")]
        else .found [("rules", "z")])
      NewRuleSetCache 5).cache.Get "ns/name" = some ⟨0, 5, "x\ny\nz"⟩ := by
  have h := C2_rule_aggregation CacheInv_new
    ⟨"ns", "name", 1, [], [⟨"v1", "ConfigMap", "A"⟩, ⟨"v1", "ConfigMap", "B"⟩,
      ⟨"v1", "ConfigMap", "C"⟩]⟩
    (fun n => if n = "A" then .found [("rules", "x")]
      else if n = "B" then .found [("rules", "y")]
      else .found [("rules", "z")])
    5
    (fun r => if r.name = "A" then "x" else if r.name = "B" then "y" else "z")
    (by intro r hrm; simp at hrm; rcases hrm with rfl | rfl | rfl <;> rfl)
    (by intro r hrm; simp at hrm; rcases hrm with rfl | rfl | rfl <;> rfl)
  simpa using h.1

/-- C6: when every source kind is ConfigMap, every found ConfigMap carries
the `rules` key, no fetch hits a non-NotFound error, and some referenced
ConfigMap does not exist, the reconciler sets Degraded=True with reason
ConfigMapNotFound, emits a Warning event with that reason, returns a
requeue result with no error, and performs no Put — the cache is exactly
what it was before the reconcile. -/

theorem C6_missing_configmap (rs : RuleSetResource) (fetch : String → CMFetch)
    (c : RuleSetCache) (now : Int)
    (hk : ∀ r ∈ rs.rules, r.kind = "ConfigMap")
    (hd : ∀ r ∈ rs.rules, ∀ d, fetch r.name = .found d →
      lookupStr d "rules" ≠ none)
    (hn : ∀ r ∈ rs.rules, fetch r.name ≠ .otherErr)
    (hex : ∃ r ∈ rs.rules, fetch r.name = .notFoundErr) :
    (Reconcile (some rs) fetch c now).cache = c ∧
    (Reconcile (some rs) fetch c now).requeue = true ∧
    (Reconcile (some rs) fetch c now).isErr = false ∧
    statusOf (Reconcile (some rs) fetch c now).conditions "Degraded" =
      some "True" ∧
    reasonOf (Reconcile (some rs) fetch c now).conditions "Degraded" =
      some "ConfigMapNotFound" ∧
    (Reconcile (some rs) fetch c now).events =
      [("Warning", "ConfigMapNotFound")] := by
  obtain ⟨name, hname⟩ := aggregateLoop_missing fetch rs.rules hk hd hn hex
  have hrec : Reconcile (some rs) fetch c now =
      ⟨setStatusConditionDegraded
          (if FindStatusCondition rs.conditions "Ready" = none then
            setStatusProgressing rs.conditions rs.generation "Reconciling"
              "Starting reconciliation" now
          else rs.conditions) rs.generation "ConfigMapNotFound"
          ("Referenced ConfigMap " ++ name ++ " does not exist") now,
        [("Warning", "ConfigMapNotFound")], true, false, c⟩ := by
    simp only [Reconcile, hname]
  rw [hrec]
  exact ⟨rfl, rfl, rfl, degraded_statusOf _ _ _ _ _, degraded_reasonOf _ _ _ _ _,
    rfl⟩

/-- Witness for C6: a RuleSet referencing the single missing ConfigMap
"missing" against the empty cache. -/

theorem C6_witness :
    (Reconcile (some ⟨"n", "s", 1, [], [⟨"v1", "ConfigMap", "missing"⟩]⟩)
        (fun _ => CMFetch.notFoundErr) NewRuleSetCache 7).cache =
      NewRuleSetCache ∧
    (Reconcile (some ⟨"n", "s", 1, [], [⟨"v1", "ConfigMap", "missing"⟩]⟩)
        (fun _ => CMFetch.notFoundErr) NewRuleSetCache 7).requeue = true ∧
    (Reconcile (some ⟨"n", "s", 1, [], [⟨"v1", "ConfigMap", "missing"⟩]⟩)
        (fun _ => CMFetch.notFoundErr) NewRuleSetCache 7).isErr = false ∧
    statusOf (Reconcile (some ⟨"n", "s", 1, [], [⟨"v1", "ConfigMap", "missing"⟩]⟩)
        (fun _ => CMFetch.notFoundErr) NewRuleSetCache 7).conditions "Degraded" =
      some "True" ∧
    reasonOf (Reconcile (some ⟨"n", "s", 1, [], [⟨"v1", "ConfigMap", "missing"⟩]⟩)
        (fun _ => CMFetch.notFoundErr) NewRuleSetCache 7).conditions "Degraded" =
      some "ConfigMapNotFound" ∧
    (Reconcile (some ⟨"n", "s", 1, [], [⟨"v1", "ConfigMap", "missing"⟩]⟩)
        (fun _ => CMFetch.notFoundErr) NewRuleSetCache 7).events =
      [("Warning", "ConfigMapNotFound")] :=
  C6_missing_configmap ⟨"n", "s", 1, [], [⟨"v1", "ConfigMap", "missing"⟩]⟩
    (fun _ => CMFetch.notFoundErr) NewRuleSetCache 7
    (by intro r hrm; simp at hrm; rw [hrm])
    (by intro r _ d hf; cases hf)
    (by intro r _ hf; cases hf)
    ⟨⟨"v1", "ConfigMap", "missing"⟩, by simp, rfl⟩

/-- `stripLead` of an appended leading segment returns the remainder
(`strings.TrimPrefix` behavior). -/

theorem stripLead_append (pre s : String) : stripLead (pre ++ s) pre = s := by
  unfold stripLead
  rw [show (pre ++ s).data = pre.data ++ s.data from rfl,
    if_pos (List.isPrefixOf_iff_prefix.mpr (List.prefix_append pre.data s.data))]
  show (⟨(pre.data ++ s.data).drop pre.data.length⟩ : String) = s
  rw [List.drop_left]

/-- A string with "/latest" appended ends with "/latest". -/

theorem endsWith_latest (s : String) : endsWith (s ++ "/latest") "/latest" = true :=
  List.isSuffixOf_iff_suffix.mpr (List.suffix_append s.data "/latest".data)

/-- `stripTail` of an appended trailing segment returns the front
(`strings.TrimSuffix` behavior). -/

theorem stripTail_append (s suf : String) : stripTail (s ++ suf) suf = s := by
  unfold stripTail
  rw [show (s ++ suf).data = s.data ++ suf.data from rfl,
    if_pos (List.isSuffixOf_iff_suffix.mpr (List.suffix_append s.data suf.data))]
  show (⟨(s.data ++ suf.data).take ((s.data ++ suf.data).length - suf.data.length)⟩ :
    String) = s
  rw [List.length_append, show s.data.length + suf.data.length - suf.data.length =
    s.data.length by omega, List.take_left]

/-- A string with "/latest" appended is non-empty. -/

theorem append_latest_ne_empty (s : String) : s ++ "/latest" ≠ "" := by
  intro h
  have hlen := congrArg String.length h
  rw [String.length_append, show "/latest".length = 7 from rfl,
    show "".length = 0 from rfl] at hlen
  omega

/-- Routing of a GET under the `/rules/` mount, expressed on the key. -/

theorem handleRules_route (c : RuleSetCache) (k : String) :
    handleRules c "GET" ("/rules/" ++ k) =
      (if k = "" then .badRequest
       else if endsWith k "/latest" then handleLatest c (stripTail k "/latest")
       else handleGetRules c k) := by
  unfold handleRules
  rw [if_neg (by simp), stripLead_append]

/-- C3: under the rules mount, a non-GET method yields 405; a GET with an
empty key segment yields 400; a GET (with or without the trailing /latest)
whose key is absent from the cache yields 404; and a GET on a present key
yields 200 with JSON fields exactly uuid and timestamp on the /latest
endpoint, plus rules on the full endpoint. -/

theorem C3_http_error_contract (c : RuleSetCache) (method k : String)
    (e : RuleSetEntry) :
    (method ≠ "GET" → ∀ path, (handleRules c method path).statusCode = 405) ∧
    (handleRules c "GET" "/rules/").statusCode = 400 ∧
    (k ≠ "" → endsWith k "/latest" = false → c.Get k = none →
      (handleRules c "GET" ("/rules/" ++ k)).statusCode = 404 ∧
      (handleRules c "GET" ("/rules/" ++ k ++ "/latest")).statusCode = 404) ∧
    (k ≠ "" → endsWith k "/latest" = false → c.Get k = some e →
      handleRules c "GET" ("/rules/" ++ k) = .okRules e ∧
      (handleRules c "GET" ("/rules/" ++ k)).statusCode = 200 ∧
      (handleRules c "GET" ("/rules/" ++ k)).jsonFields =
        ["uuid", "timestamp", "rules"] ∧
      handleRules c "GET" ("/rules/" ++ k ++ "/latest") =
        .okLatest e.UUID e.Timestamp ∧
      (handleRules c "GET" ("/rules/" ++ k ++ "/latest")).jsonFields =
        ["uuid", "timestamp"]) := by
  refine ⟨?_, ?_, ?_, ?_⟩
  · intro hm path
    unfold handleRules
    rw [if_pos hm]
    rfl
  · unfold handleRules
    rw [if_neg (by simp), if_pos (by decide)]
    rfl
  · intro hk hlat hget
    constructor
    · rw [handleRules_route, if_neg hk, hlat, if_neg (by simp)]
      unfold handleGetRules
      rw [hget]
      rfl
    · rw [String.append_assoc, handleRules_route,
        if_neg (append_latest_ne_empty k), if_pos (endsWith_latest k),
        stripTail_append]
      unfold handleLatest
      rw [hget]
      rfl
  · intro hk hlat hget
    have hfull : handleRules c "GET" ("/rules/" ++ k) = .okRules e := by
      rw [handleRules_route, if_neg hk, hlat, if_neg (by simp)]
      unfold handleGetRules
      rw [hget]
    have hlast : handleRules c "GET" ("/rules/" ++ k ++ "/latest") =
        .okLatest e.UUID e.Timestamp := by
      rw [String.append_assoc, handleRules_route,
        if_neg (append_latest_ne_empty k), if_pos (endsWith_latest k),
        stripTail_append]
      unfold handleLatest
      rw [hget]
    exact ⟨hfull, by rw [hfull]; rfl, by rw [hfull]; rfl, hlast,
      by rw [hlast]; rfl⟩

/-- Witness for C3 against the cache holding only key "n/s". -/

theorem C3_witness :
    (handleRules (NewRuleSetCache.Put "n/s" "r" 0) "POST"
      "/rules/n/s").statusCode = 405 ∧
    (handleRules (NewRuleSetCache.Put "n/s" "r" 0) "GET"
      "/rules/").statusCode = 400 ∧
    (handleRules (NewRuleSetCache.Put "n/s" "r" 0) "GET"
      "/rules/a/b").statusCode = 404 ∧
    (handleRules (NewRuleSetCache.Put "n/s" "r" 0) "GET"
      "/rules/a/b/latest").statusCode = 404 ∧
    handleRules (NewRuleSetCache.Put "n/s" "r" 0) "GET" "/rules/n/s" =
      .okRules ⟨0, 0, "r"⟩ ∧
    (handleRules (NewRuleSetCache.Put "n/s" "r" 0) "GET"
      "/rules/n/s").jsonFields = ["uuid", "timestamp", "rules"] ∧
    handleRules (NewRuleSetCache.Put "n/s" "r" 0) "GET" "/rules/n/s/latest" =
      .okLatest 0 0 ∧
    (handleRules (NewRuleSetCache.Put "n/s" "r" 0) "GET"
      "/rules/n/s/latest").jsonFields = ["uuid", "timestamp"] := by
  have h := C3_http_error_contract (NewRuleSetCache.Put "n/s" "r" 0) "POST"
    "a/b" ⟨0, 0, "r"⟩
  have h2 := C3_http_error_contract (NewRuleSetCache.Put "n/s" "r" 0) "GET"
    "n/s" ⟨0, 0, "r"⟩
  have h3 := h.2.2.1 (by decide) (by decide) (by decide)
  have h4 := h2.2.2.2 (by decide) (by decide) (by decide)
  exact ⟨h.1 (by decide) "/rules/n/s", h.2.1, h3.1, h3.2, h4.1, h4.2.2.1,
    h4.2.2.2.1, h4.2.2.2.2⟩

/-- C10: the router unconditionally strips one trailing "/latest" segment
before the cache lookup, so `GET /rules/{ns}/latest` is always served as the
latest-metadata query for key `ns`; dually, every full-rules (okRules)
response is for a looked-up key that does not end in "/latest", so the blob
stored under a key ending in "/latest" (e.g. from a RuleSet named "latest")
is unreachable through the HTTP interface. -/

theorem C10_latest_shadowing (c : RuleSetCache) (ns : String) :
    handleRules c "GET" ("/rules/" ++ ns ++ "/latest") = handleLatest c ns ∧
    (∀ (method path : String) (e : RuleSetEntry),
      handleRules c method path = .okRules e →
      endsWith (stripLead path "/rules/") "/latest" = false ∧
      c.Get (stripLead path "/rules/") = some e) := by
  constructor
  · rw [String.append_assoc, handleRules_route,
      if_neg (append_latest_ne_empty ns), if_pos (endsWith_latest ns),
      stripTail_append]
  · intro method path e h
    unfold handleRules at h
    by_cases hm : method ≠ "GET"
    · rw [if_pos hm] at h; cases h
    · rw [if_neg hm] at h
      by_cases hp : stripLead path "/rules/" = ""
      · rw [if_pos hp] at h; cases h
      · rw [if_neg hp] at h
        by_cases hl : endsWith (stripLead path "/rules/") "/latest" = true
        · rw [if_pos hl] at h
          unfold handleLatest at h
          cases hg : c.Get (stripTail (stripLead path "/rules/") "/latest") with
          | none => rw [hg] at h; cases h
          | some e' => rw [hg] at h; cases h
        · rw [if_neg hl] at h
          unfold handleGetRules at h
          cases hg : c.Get (stripLead path "/rules/") with
          | none => rw [hg] at h; cases h
          | some e' =>
            rw [hg] at h
            cases h
            exact ⟨by simpa using hl, rfl⟩

/-- Witness for C10: with key "ns/latest" present and key "ns" absent, the
request for /rules/ns/latest is answered 404 (the metadata query for "ns"),
not with the blob of "ns/latest"; and a full-rules response for /rules/k is
for the non-"/latest"-suffixed key k. -/

theorem C10_witness :
    handleRules (NewRuleSetCache.Put "ns/latest" "blob" 0) "GET"
      "/rules/ns/latest" = .notFound ∧
    endsWith (stripLead "/rules/k" "/rules/") "/latest" = false ∧
    (NewRuleSetCache.Put "k" "r" 0).Get (stripLead "/rules/k" "/rules/") =
      some ⟨0, 0, "r"⟩ := by
  have h1 := (C10_latest_shadowing (NewRuleSetCache.Put "ns/latest" "blob" 0)
    "ns").1
  have h2 := (C10_latest_shadowing (NewRuleSetCache.Put "k" "r" 0) "k").2
    "GET" "/rules/k" ⟨0, 0, "r"⟩ (by decide)
  exact ⟨h1.trans (by decide), h2.1, h2.2⟩
